import Mathlib

/-!
Verification of the bitsy-hacks repository (file
src/dist/edit image from dialog.js), a shallow embedding in Lean 4.

The JavaScript source is embedded as executable Lean definitions:
  * the kitsy hook runner (applyHook / runBefore, lines 235-275),
  * kitsy initialisation (kitsyInit, lines 193-220),
  * the script-tag injection utility (inject, lines 69-100),
  * image lookup (getImage, lines 111-116),
  * the dialog-function registry (addDialogFunction, lines 289-307),
  * the deferred dialog-tag queue (addDeferredDialogTag, lines 342-361),
  * the image-editing dialog tags (editImage / editPalette, lines 433-512).

JavaScript values that only matter through truthiness or through array
contents are modelled with Option / List; machine-level details that the
source relies on (string falsiness, the coercion of an undefined property
key to the string "undefined", the replacement patterns of
String.prototype.replace) are modelled explicitly where a claim depends
on them.
-/

set_option maxHeartbeats 1000000

deriving instance DecidableEq for Except

namespace BitsyHacks

/-- Argument values passed between bitsy functions and hooks.  Their
identity is irrelevant to the hook runner, so they are modelled as
natural numbers. -/
abbrev Arg := Nat

/-- Shallow embedding of a JavaScript callback as used by the kitsy hook
runner.  `arity` is the declared parameter count (JS `Function.length`).
`retVal args` is the value the callback returns when invoked without a
continuation: `none` models a falsy return value (undefined, null, 0, "")
and `some xs` models returning the array `xs` (a truthy value even when
`xs` is empty, since an empty JS array is truthy).  `contCall args`
describes the callback when it is invoked with a continuation appended to
its arguments: `none` means the continuation is never invoked, `some ys`
means the continuation is invoked exactly once, synchronously, with
argument list `ys`.  (Callbacks that invoke their continuation more than
once, or asynchronously, are outside this model.) -/
structure Hook where
  arity : Nat
  retVal : List Arg → Option (List Arg)
  contCall : List Arg → Option (List Arg)

/-- Shallow embedding of the recursive `runBefore` loop inside `applyHook`
(src/dist/edit image from dialog.js, lines 253-273).  `superFnLength` is
the declared parameter count of the original function; the list is the
remaining chain of functions, `i` the chain index of its head, and `args`
the current argument list (the mutable `args` variable).  The result is
the trace of invocations: each entry is the chain index of an invoked
function together with the argument list it was applied to.

The branches mirror the source: a function whose declared parameter count
exceeds `superFnLength` is invoked with the continuation appended and the
chain continues only if the continuation is invoked (with the passed
arguments replacing `args` unless none are passed, per the
`arguments.length > 0` check); any other function is invoked
synchronously and the chain continues immediately, a truthy returned
array replacing `args` via `newArgs = fn.apply(this, args) || args`
followed by `runBefore.apply(this, newArgs)` - which updates `args` only
when `newArgs` is nonempty. -/
def runBefore (superFnLength : Nat) : List Hook → Nat → List Arg → List (Nat × List Arg)
  | [], _, _ => []
  | f :: rest, i, args =>
    if superFnLength < f.arity then
      match f.contCall args with
      | none => [(i, args)]
      | some ys => (i, args) :: runBefore superFnLength rest (i + 1) (if ys = [] then args else ys)
    else
      match f.retVal args with
      | none => (i, args) :: runBefore superFnLength rest (i + 1) args
      | some ys => (i, args) :: runBefore superFnLength rest (i + 1) (if ys = [] then args else ys)

/-- A function slot on the global bitsy object: either a native bitsy
function or the wrapper installed by `applyHook`, which stores the full
chain (before hooks, then the original, then after hooks) and the
original function's declared parameter count. -/
inductive BitsyFn where
  | native (h : Hook)
  | wrapped (fns : List Hook) (superFnLength : Nat)

/-- The kitsy registries of pending hooks, keyed by target function name
(`queuedBeforeScripts` / `queuedAfterScripts` in the source). -/
structure HookQueues where
  queuedBeforeScripts : String → List Hook
  queuedAfterScripts : String → List Hook

/-- Hook queues with nothing registered. -/
def emptyQueues : HookQueues := ⟨fun _ => [], fun _ => []⟩

/-- Shallow embedding of `before` (lines 180-184): appends the callback to
the before-queue of the target function name. -/
def before (targetFuncName : String) (beforeFn : Hook) (k : HookQueues) : HookQueues :=
  { k with queuedBeforeScripts := fun n =>
      if n = targetFuncName then k.queuedBeforeScripts n ++ [beforeFn]
      else k.queuedBeforeScripts n }

/-- Shallow embedding of `after` (lines 187-191): appends the callback to
the after-queue of the target function name. -/
def after (targetFuncName : String) (afterFn : Hook) (k : HookQueues) : HookQueues :=
  { k with queuedAfterScripts := fun n =>
      if n = targetFuncName then k.queuedAfterScripts n ++ [afterFn]
      else k.queuedAfterScripts n }

/-- Shallow embedding of `applyHook` (lines 235-275): replaces the entry
of `functionName` in the bitsy function table with a wrapper holding the
chain [before hooks, original, after hooks].  In this hack `applyHook` is
called at most once per name (applyAllHooks iterates over unique names),
so the already-wrapped case leaves the slot unchanged. -/
def applyHook (tbl : String → BitsyFn) (k : HookQueues) (functionName : String) :
    String → BitsyFn :=
  fun n =>
    if n = functionName then
      match tbl functionName with
      | .native h =>
          .wrapped
            (k.queuedBeforeScripts functionName ++ [h] ++ k.queuedAfterScripts functionName)
            h.arity
      | .wrapped fns a => .wrapped fns a
    else tbl n

/-- Invoking a function stored in the bitsy table: a native function is a
single invocation of itself; a wrapped function starts its chain at index
0 with the caller's arguments (the wrapper body `runBefore.apply(this,
arguments)`). -/
def callBitsyFn : BitsyFn → List Arg → List (Nat × List Arg)
  | .native _, args => [(0, args)]
  | .wrapped fns a, args => runBefore a fns 0 args

/-- Modelled from the claim wording of C2 (as amended): the expected
advancement of the chain past one callback.  `none` means the chain does
not advance (an asynchronous callback whose continuation is never
invoked); `some newArgs` gives the arguments the next function receives.
A callback is treated as asynchronous exactly when its declared parameter
count is strictly greater than the original function's; a synchronous
callback advances immediately, its return value replacing the arguments
when it is truthy and nonempty. -/
def hookStepSpec (superFnLength : Nat) (f : Hook) (args : List Arg) : Option (List Arg) :=
  if superFnLength < f.arity then
    match f.contCall args with
    | none => none
    | some ys => some (if ys = [] then args else ys)
  else
    match f.retVal args with
    | none => some args
    | some ys => some (if ys = [] then args else ys)

/-- The model of the current bitsy boot state used by `kitsyInit` (lines
193-220): whether `bitsy.kitsy` has been created, and the current value
of the `startExportedGame` slot.  A slot value is either the original
exported function or the wrapper installed by `kitsyInit` (which captured
the previous slot value as `oldStartFunc`). -/
inductive StartFn where
  | original
  | wrapped (prev : StartFn)
deriving DecidableEq

/-- Boot-time bitsy state: `hasKitsy` models the truthiness of
`bitsy.kitsy`, and `startExportedGame` the current function slot. -/
structure BitsyBoot where
  hasKitsy : Bool
  startExportedGame : StartFn
deriving DecidableEq

/-- Observable effects of running the boot sequence. -/
inductive BootEff where
  | doInjects
  | applyAllHooks
  | runOriginalStart
deriving DecidableEq

/-- Shallow embedding of `kitsyInit` (lines 193-220): when `bitsy.kitsy`
already exists the state is returned unchanged (the already-initialized
registry is returned and `startExportedGame` is not re-wrapped);
otherwise the registry is created and the `startExportedGame` slot is
wrapped, capturing the old slot value. -/
def kitsyInit (b : BitsyBoot) : BitsyBoot :=
  if b.hasKitsy then b
  else { hasKitsy := true, startExportedGame := .wrapped b.startExportedGame }

/-- Invoking a `startExportedGame` value in a given boot state.  The
wrapper `doAllInjections` first restores the captured old function into
the slot ("Only do this once."), then performs the injections and hook
application, then invokes the function currently stored in the slot
(`bitsy.startExportedGame.apply(this, arguments)`, which it just
restored).  Returns the final state and the list of effects in order. -/
def callStartFn : StartFn → BitsyBoot → BitsyBoot × List BootEff
  | .original, b => (b, [.runOriginalStart])
  | .wrapped prev, b =>
    let b1 : BitsyBoot := { b with startExportedGame := prev }
    let r := callStartFn prev b1
    (r.1, .doInjects :: .applyAllHooks :: r.2)

/-- Invoking `bitsy.startExportedGame()` in boot state `b`. -/
def invokeStart (b : BitsyBoot) : BitsyBoot × List BootEff :=
  callStartFn b.startExportedGame b

/-- One queued deferred dialog-tag invocation: the `{e:e,p:p}` record
pushed by the injected functionMap handler of `addDeferredDialogTag`
(line 348).  The environment and parameters are opaque here. -/
structure DeferredCall where
  env : Nat
  params : String
deriving DecidableEq

/-- The injected handler of a deferred dialog tag pushes the invocation
onto the end of the tag's queue (`kitsy.deferredDialogFunctions.tag.push`). -/
def deferredPush (q : List DeferredCall) (c : DeferredCall) : List DeferredCall :=
  q ++ [c]

/-- Shallow embedding of the `after onExitDialog` hook of
`addDeferredDialogTag` (lines 351-356): `while (deferred.length) { var
args = deferred.shift(); fn(args.e, args.p, args.o); }`.  Returns the
calls executed (in execution order) and the final queue.  The executed
functions of this hack never touch the queue themselves, so the loop is
a plain drain. -/
def onExitDialogDrain : List DeferredCall → List DeferredCall × List DeferredCall
  | [] => ([], [])
  | c :: rest =>
    let r := onExitDialogDrain rest
    (c :: r.1, r.2)

/-- Shallow embedding of the `after clearGameData` hook of
`addDeferredDialogTag` (lines 358-360): `deferred.length = 0` empties
the queue; nothing is executed. -/
def clearGameDataReset (_q : List DeferredCall) : List DeferredCall × List DeferredCall :=
  ([], [])

/-- The kitsy state touched by `addDialogFunction` (lines 289-307):
`dialogFunctions` models `kitsy.dialogFunctions` (absent until first
use, then an insertion-ordered table from tag names to functions,
functions being opaque identifiers here), and `queuedLoadGameHooks`
counts the `before('load_game', ...)` rewrite hooks registered. -/
structure KitsyDialog where
  dialogFunctions : Option (List (String × Nat))
  queuedLoadGameHooks : Nat
deriving DecidableEq

/-- Shallow embedding of `addDialogFunction` (lines 289-307): ensures the
table exists (`kitsy.dialogFunctions = kitsy.dialogFunctions || {}`),
throws when the tag is already present - before registering the
load_game rewrite hook and before storing the function - and otherwise
registers the rewrite hook and stores the function under the tag.
Returns the new state and the thrown error message, if any. -/
def addDialogFunction (k : KitsyDialog) (tag : String) (fn : Nat) :
    KitsyDialog × Option String :=
  let dfs := k.dialogFunctions.getD []
  if (dfs.find? fun e => e.1 == tag).isSome then
    ({ k with dialogFunctions := some dfs },
      some ("The dialog function \"" ++ tag ++ "\" already exists."))
  else
    ({ dialogFunctions := some (dfs ++ [(tag, fn)]),
       queuedLoadGameHooks := k.queuedLoadGameHooks + 1 }, none)

/-- The backquote character (code 96), written by code point to keep the
source free of the literal character. -/
def bqtChar : Char := Char.ofNat 96

/-- The apostrophe character (code 39), written by code point to keep the
source free of the literal character. -/
def apoChar : Char := Char.ofNat 39

/-- The dollar character. -/
def dolChar : Char := Char.ofNat 36

/-- Decides whether the first list is a prefix of the second. -/
def isPfx : List Char → List Char → Bool
  | [], _ => true
  | _ :: _, [] => false
  | a :: as, b :: bs => a == b && isPfx as bs

/-- Splits a character list at the first occurrence of `pat`: returns the
part strictly before the match and the part strictly after it, or `none`
when `pat` does not occur.  This is the search underlying both JS
`String.prototype.indexOf` and the single replacement made by
`String.prototype.replace` with a string pattern. -/
def splitFirst (pat : List Char) : List Char → Option (List Char × List Char)
  | [] => if pat = [] then some ([], []) else none
  | c :: rest =>
    if isPfx pat (c :: rest) then some ([], (c :: rest).drop pat.length)
    else
      match splitFirst pat rest with
      | some pp => some (c :: pp.1, pp.2)
      | none => none

/-- JS `s.indexOf(pat) !== -1`. -/
def containsSub (s pat : String) : Bool :=
  (splitFirst pat.data s.data).isSome

/-- The GetSubstitution step of JS `String.prototype.replace`: the
replacement text is scanned for `$`-sequences; `$$` yields `$`, `$&` the
matched text `m`, a dollar followed by a backquote the part `pre` before
the match, a dollar followed by an apostrophe the part `post` after the
match.  With a string pattern there are no capture groups, so every other
`$`-sequence (including a trailing lone `$`) is kept literally. -/
def getSubstitution (m pre post : List Char) : List Char → List Char
  | [] => []
  | [c] => [c]
  | c :: d :: rest =>
    if c = dolChar then
      if d = dolChar then d :: getSubstitution m pre post rest
      else if d = '&' then m ++ getSubstitution m pre post rest
      else if d = bqtChar then pre ++ getSubstitution m pre post rest
      else if d = apoChar then post ++ getSubstitution m pre post rest
      else c :: d :: getSubstitution m pre post rest
    else c :: getSubstitution m pre post (d :: rest)

/-- Scans a replacement text for a special `$`-sequence (`$$`, `$&`,
dollar-backquote, dollar-apostrophe).  When this is false the replacement
is inserted literally. -/
def hasDollarSpecial : List Char → Bool
  | [] => false
  | [_] => false
  | c :: d :: rest =>
    if c = dolChar then
      if d = dolChar ∨ d = '&' ∨ d = bqtChar ∨ d = apoChar then true
      else hasDollarSpecial rest
    else hasDollarSpecial (d :: rest)

/-- JS `s.replace(pat, repl)` with a string pattern: replaces the first
occurrence of `pat` (if any) by `repl` processed through GetSubstitution. -/
def jsReplaceOnce (s pat repl : List Char) : List Char :=
  match splitFirst pat s with
  | none => s
  | some pp => pp.1 ++ getSubstitution pat pp.1 pp.2 repl ++ pp.2

/-- A code-fragment argument of `inject`: JS callers may pass strings or
arbitrarily nested arrays of strings. -/
inductive Frag where
  | str (s : String)
  | list (l : List Frag)

mutual

/-- Shallow embedding of `flatten` (lines 129-137): a non-array is
returned as-is, an array is flattened recursively. -/
def flatten : Frag → List String
  | .str s => [s]
  | .list l => flattenList l

/-- Flattening of a list of fragments (the `reduce`/`concat` loop of
`flatten`). -/
def flattenList : List Frag → List String
  | [] => []
  | f :: fs => flatten f ++ flattenList fs

end

/-- JS `array.join('')`. -/
def joinAll (l : List String) : String :=
  l.foldl (fun a b => a ++ b) ""

/-- One script tag in the document: its text content, and whether it is
the currently executing script (`document.currentScript`). -/
structure ScriptTag where
  text : String
  isCurrent : Bool

/-- The search loop of `inject` (lines 74-85): the text content of the
first script tag that contains the search string and is not the current
script, if any. -/
def injectFind (searchString : String) : List ScriptTag → Option String
  | [] => none
  | t :: rest =>
    if containsSub t.text searchString && !t.isCurrent then some t.text
    else injectFind searchString rest

/-- The message thrown by `inject` when no usable script tag is found
(line 89).  The apostrophe is assembled by code point. -/
def msgNotFound (s : String) : String :=
  "Couldn" ++ String.singleton apoChar ++ "t find \"" ++ s ++ "\" in script tags"

/-- Shallow embedding of `inject` (lines 69-100): flattens and joins the
code fragments, finds the first non-current script tag containing the
search string, throws when `code` is falsy - which happens both when no
tag matched and when the matched tag's text is the empty string - and
otherwise produces the patched script text
`code.replace(searchString, searchString + codeToInject)`.  (The DOM
re-insertion of the patched tag is not modelled; the result is the new
text content.) -/
def inject (searchString : String) (frags : List Frag) (scripts : List ScriptTag) :
    Except String String :=
  let codeToInject := joinAll (flattenList frags)
  match injectFind searchString scripts with
  | none => .error (msgNotFound searchString)
  | some code =>
    if code = "" then .error (msgNotFound searchString)
    else .ok (String.mk (jsReplaceOnce code.data searchString.data
      (searchString.data ++ codeToInject.data)))

/-- Animation data of a bitsy image. -/
structure Animation where
  frameCount : Nat
  isAnimated : Bool
  frameIndex : Nat
deriving DecidableEq

/-- A bitsy image (sprite/tile/item): its optional name, drawing id,
palette index, and animation record. -/
structure Image where
  name : Option String
  drw : String
  col : Int
  animation : Animation
deriving DecidableEq

/-- A bitsy image map (`sprite`, `tile`, `item`): an object whose own
enumerable keys are image ids, listed here in key-enumeration order. -/
abbrev ImageMap := List (String × Image)

/-- Shallow embedding of `getImage` (lines 111-116): if the lookup key is
an own property of the map it is used as the id, otherwise the id is the
first key (in enumeration order) whose entry's `name` equals the key, and
the function returns `map[id]`.  When the name search also fails, `id` is
the JS value `undefined`, and the final property access `map[id]` coerces
it to the string key "undefined" - so a map owning a literal "undefined"
key returns that entry. -/
def getImage (name : String) (map : ImageMap) : Option Image :=
  let id : Option String :=
    if (map.find? fun e => e.1 == name).isSome then some name
    else (map.find? fun e => e.2.name == some name).map (fun e => e.1)
  match id with
  | some i => (map.find? fun e => e.1 == i).map (fun e => e.2)
  | none => (map.find? fun e => e.1 == "undefined").map (fun e => e.2)

/-- Modelled from the claim wording of C10 (the unamended claim):
resolution by own key first, otherwise the first entry whose name equals
the key, otherwise undefined. -/
def getImageClaimed (name : String) (map : ImageMap) : Option Image :=
  match map.find? (fun e => e.1 == name) with
  | some e => some e.2
  | none => (map.find? (fun e => e.2.name == some name)).map (fun e => e.2)

/-- Modelled from the claim wording of C10 as amended: as claimed, except
that when no entry matches by key or by name, the entry stored under the
literal key "undefined" is returned when present. -/
def getImageAmendedSpec (name : String) (map : ImageMap) : Option Image :=
  match map.find? (fun e => e.1 == name) with
  | some e => some e.2
  | none =>
    match map.find? (fun e => e.2.name == some name) with
    | some e => some e.2
    | none => (map.find? (fun e => e.1 == "undefined")).map (fun e => e.2)

/-- The three image maps captured by the hack in its `maps` table. -/
structure BitsyMaps where
  sprite : ImageMap
  tile : ImageMap
  item : ImageMap

/-- The `maps` object literal (lines 424-431): `spr` and `sprite` map to
`bitsy.sprite`, `til` and `tile` to `bitsy.tile`, `itm` and `item` to
`bitsy.item`; any other key is absent. -/
def mapsLookup (b : BitsyMaps) (k : String) : Option ImageMap :=
  if k = "spr" ∨ k = "sprite" then some b.sprite
  else if k = "til" ∨ k = "tile" then some b.tile
  else if k = "itm" ∨ k = "item" then some b.item
  else none

/-- The recognized map identifiers (the own keys of `maps`). -/
def recognizedMaps : List String :=
  ["spr", "sprite", "til", "tile", "itm", "item"]

/-- The ASCII whitespace characters matched by the regex class used in
the parameter split and by the leading trim of `parseInt` (bitsy dialog
parameters are ASCII). -/
def isJsSpace (c : Char) : Bool :=
  c = ' ' ∨ c = '\t' ∨ c = '\n' ∨ c = '\r' ∨ c = Char.ofNat 11 ∨ c = Char.ofNat 12

/-- JS `s.split(/,\s?/)` on characters: the text is cut at every comma,
each comma greedily consuming one following whitespace character. -/
def splitParamsChars : List Char → List (List Char)
  | [] => [[]]
  | ',' :: rest =>
    match rest with
    | [] => [[], []]
    | c :: rest2 =>
      if isJsSpace c then [] :: splitParamsChars rest2
      else [] :: splitParamsChars (c :: rest2)
  | c :: rest =>
    match splitParamsChars rest with
    | s :: ss => (c :: s) :: ss
    | [] => [[c]]

/-- JS `parameters[0].split(/,\s?/)` (lines 437 and 479). -/
def splitParams (s : String) : List String :=
  (splitParamsChars s.data).map String.mk

/-- JS `s.toLowerCase()` on ASCII text (map identifiers are ASCII). -/
def jsToLower (s : String) : String :=
  String.mk (s.data.map Char.toLower)

/-- Value of a decimal digit character, `none` otherwise. -/
def decDigitVal (c : Char) : Option Nat :=
  if c.isDigit then some (c.toNat - 48) else none

/-- Value of a hexadecimal digit character, `none` otherwise. -/
def hexDigitVal (c : Char) : Option Nat :=
  if c.isDigit then some (c.toNat - 48)
  else if 'a' ≤ c ∧ c ≤ 'f' then some (c.toNat - 87)
  else if 'A' ≤ c ∧ c ≤ 'F' then some (c.toNat - 55)
  else none

/-- Accumulates leading digits; stops at the first non-digit. -/
def parseIntDigitsGo (digitVal : Char → Option Nat) (base : Nat) : List Char → Nat → Nat
  | [], acc => acc
  | c :: rest, acc =>
    match digitVal c with
    | some d => parseIntDigitsGo digitVal base rest (acc * base + d)
    | none => acc

/-- Parses the leading run of digits; `none` when there is no digit at
all (the NaN case of `parseInt`). -/
def parseIntDigits (digitVal : Char → Option Nat) (base : Nat) : List Char → Option Nat
  | [] => none
  | c :: rest =>
    match digitVal c with
    | some d => some (parseIntDigitsGo digitVal base rest d)
    | none => none

/-- JS `parseInt(s)` with no radix argument: skip leading whitespace,
read an optional sign, switch to base 16 after a `0x`/`0X` prefix,
otherwise read base-10 digits; the result is NaN (here `none`) when no
digit follows, and trailing garbage is ignored. -/
def jsParseInt (s : String) : Option Int :=
  let cs := s.data.dropWhile (fun c => isJsSpace c)
  let sgnCs : Int × List Char :=
    match cs with
    | c :: r => if c = '-' then (-1, r) else if c = '+' then (1, r) else (1, cs)
    | [] => (1, [])
  let body : Option Nat :=
    match sgnCs.2 with
    | z :: x :: r =>
      if z = '0' ∧ (x = 'x' ∨ x = 'X') then parseIntDigits hexDigitVal 16 r
      else parseIntDigits decDigitVal 10 sgnCs.2
    | _ => parseIntDigits decDigitVal 10 sgnCs.2
  body.map (fun n => sgnCs.1 * (n : Int))

/-- The observable effects of a successful image-editing dialog function:
the writes it performs on the host runtime and the final `onReturn(null)`
call.  `setAnimationData` is the copy of the source animation record onto
the target (line 462), `copyFrame` one iteration of the
`setImageData(tgtId, i, mapObj, getImageData(srcId, i, mapObj))` loop
(line 468), `setCol` the palette write `tgtObj.col = palObj` (line 503),
and `renderForAllPalettes` the cache update (line 506). -/
inductive ImgEffect where
  | setAnimationData (targetId : String) (a : Animation)
  | copyFrame (targetId sourceId : String) (frame : Nat)
  | setCol (targetId : String) (pal : Int)
  | renderForAllPalettes (targetId : String)
  | onReturnNull
deriving DecidableEq

/-- Shallow embedding of the dialog function `editImage` (lines 433-475).
`param0` is `parameters[0]`; `hasOnReturn` tells whether an `onReturn`
continuation was supplied (immediate tags pass one, deferred replay does
not).  Errors are returned as `Except.error` with the thrown message;
success returns the effect list in execution order. -/
def editImage (b : BitsyMaps) (param0 : String) (hasOnReturn : Bool) :
    Except String (List ImgEffect) :=
  let params := splitParams param0
  let mapId := jsToLower (params.getD 0 "")
  let tgtId := params.getD 1 ""
  let srcId := params.getD 2 ""
  if mapId = "" ∨ tgtId = "" ∨ srcId = "" then
    .error ("Image expects three parameters: \"map, target, source\", but received: \""
      ++ param0 ++ "\"")
  else
    match mapsLookup b mapId with
    | none =>
      .error ("Invalid map \"" ++ mapId ++ "\". Try \"SPR\", \"TIL\", or \"ITM\" instead.")
    | some mapObj =>
      match getImage tgtId mapObj with
      | none =>
        .error ("Target \"" ++ tgtId ++ "\" was not the id/name of a " ++ mapId ++ ".")
      | some _ =>
        match getImage srcId mapObj with
        | none =>
          .error ("Source \"" ++ srcId ++ "\" was not the id/name of a " ++ mapId ++ ".")
        | some srcObj =>
          .ok (ImgEffect.setAnimationData tgtId srcObj.animation ::
            ((List.range srcObj.animation.frameCount).map
              (fun i => ImgEffect.copyFrame tgtId srcId i) ++
             (if hasOnReturn then [ImgEffect.onReturnNull] else [])))

/-- Shallow embedding of the dialog function `editPalette` (lines
477-512).  Unlike `editImage`, the map identifier is not lowercased; the
third parameter goes through `parseInt` and a NaN result throws. -/
def editPalette (b : BitsyMaps) (param0 : String) (hasOnReturn : Bool) :
    Except String (List ImgEffect) :=
  let params := splitParams param0
  let mapId := params.getD 0 ""
  let tgtId := params.getD 1 ""
  let palId := params.getD 2 ""
  if mapId = "" ∨ tgtId = "" ∨ palId = "" then
    .error ("Image expects three parameters: \"map, target, palette\", but received: \""
      ++ param0 ++ "\"")
  else
    match mapsLookup b mapId with
    | none =>
      .error ("Invalid map \"" ++ mapId ++ "\". Try \"SPR\", \"TIL\", or \"ITM\" instead.")
    | some mapObj =>
      match getImage tgtId mapObj with
      | none =>
        .error ("Target \"" ++ tgtId ++ "\" was not the id/name of a " ++ mapId ++ ".")
      | some _ =>
        match jsParseInt palId with
        | none => .error ("Palette \"" ++ palId ++ "\" was not a number.")
        | some pal =>
          .ok ([ImgEffect.setCol tgtId pal, ImgEffect.renderForAllPalettes tgtId] ++
            (if hasOnReturn then [ImgEffect.onReturnNull] else []))

/-- Whether an Except value is an error (a thrown JS exception). -/
def isErr {ε α : Type} : Except ε α → Bool
  | .error _ => true
  | .ok _ => false

/-- Concrete before-hook used by the C1 witness: synchronous (arity 0),
falsy return. -/
def hookC1b : Hook := ⟨0, fun _ => none, fun as => some as⟩

/-- Concrete original function used by the C1 witness. -/
def hookC1o : Hook := ⟨0, fun _ => none, fun as => some as⟩

/-- Concrete after-hook used by the C1 witness. -/
def hookC1a : Hook := ⟨0, fun _ => none, fun as => some as⟩

/-- Concrete bitsy table used by the C1 witness. -/
def tblC1 : String → BitsyFn := fun _ => .native hookC1o

/-- Concrete hook queues for the C1 witness, built by registering
`hookC1b` as a before-hook and `hookC1a` as an after-hook of
"drawRoom". -/
def kC1 : HookQueues :=
  List.foldl (fun acc f => after ("drawRoom") f acc)
    (List.foldl (fun acc f => before ("drawRoom") f acc) emptyQueues [hookC1b]) [hookC1a]

/-- Synchronous callback returning the empty array - a truthy JS value -
used by the C2 counterexample. -/
def hookC2t : Hook := ⟨0, fun _ => some [], fun as => some as⟩

/-- Concrete original function used by the C2 counterexample and witness. -/
def hookC2o : Hook := ⟨0, fun _ => none, fun as => some as⟩

/-- Asynchronous callback (arity 1 against an original of arity 0) that
never invokes its continuation, used by the C3 witness. -/
def hookC3s : Hook := ⟨1, fun _ => none, fun _ => none⟩

/-- Concrete original function used by the C3 witness. -/
def hookC3o : Hook := ⟨0, fun _ => none, fun as => some as⟩

/-- Concrete sprite used by the C6 witness (two animation frames). -/
def imgC6A : Image := ⟨some "player", "SPR_A", 0, ⟨2, true, 0⟩⟩

/-- Concrete sprite used by the C6 witness (named "cat"). -/
def imgC6a : Image := ⟨some "cat", "SPR_a", 0, ⟨1, false, 0⟩⟩

/-- Concrete maps used by the C6 witness. -/
def mapsC6 : BitsyMaps := ⟨[("A", imgC6A), ("a", imgC6a)], [], []⟩

/-- Concrete image used by the C10 counterexample; its name does not
match the looked-up key. -/
def imgC10 : Image := ⟨some "foo", "TIL_u", 0, ⟨1, false, 0⟩⟩

/-- Map owning a literal "undefined" key, used by the C10
counterexample. -/
def mapC10 : ImageMap := [("undefined", imgC10)]

/-- Concrete image used by the C10 witness. -/
def imgC10A : Image := ⟨some "player", "SPR_A", 0, ⟨1, false, 0⟩⟩

/-- Concrete image named "cat" used by the C10 witness. -/
def imgC10a : Image := ⟨some "cat", "SPR_a", 0, ⟨1, false, 0⟩⟩

/-- Concrete map used by the C10 witness. -/
def mapC10w : ImageMap := [("A", imgC10A), ("a", imgC10a)]

/-!  Theorems. -/

/-- Claim C8: for every deferred dialog tag, invocations queued during
dialog are executed in the order they were queued when the dialog exits
(the onExitDialog drain returns exactly the queued calls, oldest first,
and leaves the queue empty), and on game reset (clearGameData) the queue
is emptied without executing any entry. -/
theorem deferredDialog_queue_behavior :
    ∀ (q cs : List DeferredCall),
      onExitDialogDrain (cs.foldl deferredPush q) = (q ++ cs, []) ∧
      clearGameDataReset (cs.foldl deferredPush q) = ([], []) := by
  have hdrain : ∀ q : List DeferredCall, onExitDialogDrain q = (q, []) := by
    intro q
    induction q with
    | nil => rfl
    | cons c rest ih => simp [onExitDialogDrain, ih]
  have hfold : ∀ (cs q0 : List DeferredCall), cs.foldl deferredPush q0 = q0 ++ cs := by
    intro cs
    induction cs with
    | nil => intro q0; simp
    | cons c rest ih => intro q0; simp [List.foldl_cons, deferredPush, ih]
  intro q cs
  rw [hfold, hdrain]
  exact ⟨rfl, rfl⟩

/-- Claim C9: kitsy initialisation is idempotent - once initialized,
`kitsyInit` returns the state unchanged (same registry, no re-wrapping of
`startExportedGame`) - and the wrapped `startExportedGame` performs the
script injections and hook application exactly once: its first invocation
restores the original function into the slot before delegating, so the
first call produces [doInjects, applyAllHooks, runOriginalStart] and every
later call runs only the original. -/
theorem kitsyInit_idempotent (b : BitsyBoot)
    (hk : b.hasKitsy = false) (hs : b.startExportedGame = .original) :
    (∀ b2 : BitsyBoot, b2.hasKitsy = true → kitsyInit b2 = b2) ∧
    kitsyInit (kitsyInit b) = kitsyInit b ∧
    (invokeStart (kitsyInit b)).2 = [.doInjects, .applyAllHooks, .runOriginalStart] ∧
    (invokeStart (kitsyInit b)).1.startExportedGame = .original ∧
    (invokeStart ((invokeStart (kitsyInit b)).1)).2 = [.runOriginalStart] := by
  have hinit : kitsyInit b = { hasKitsy := true, startExportedGame := .wrapped .original } := by
    simp [kitsyInit, hk, hs]
  refine ⟨?_, ?_, ?_, ?_, ?_⟩
  · intro b2 h2; simp [kitsyInit, h2]
  · rw [hinit]; simp [kitsyInit]
  · rw [hinit]; simp [invokeStart, callStartFn]
  · rw [hinit]; simp [invokeStart, callStartFn]
  · rw [hinit]; simp [invokeStart, callStartFn]

/-- Witness for C9 at a concrete uninitialized boot state. -/
theorem kitsyInit_idempotent_witness :
    (invokeStart (kitsyInit ⟨false, .original⟩)).2 =
      [.doInjects, .applyAllHooks, .runOriginalStart] :=
  (kitsyInit_idempotent ⟨false, .original⟩ rfl rfl).2.2.1

/-- Claim C5: registering a dialog-tag function under a tag already
present in the dialog-function registry throws (the returned message is
`some _`) and leaves the registry contents and the queued load_game
hooks unchanged; registering under a fresh tag throws nothing, appends
exactly that one entry, and queues one load_game rewrite hook. -/
theorem addDialogFunction_registry (k : KitsyDialog) (tag : String) (fn : Nat) :
    ((∃ g, (tag, g) ∈ k.dialogFunctions.getD []) →
       (addDialogFunction k tag fn).2.isSome = true ∧
       (addDialogFunction k tag fn).1.dialogFunctions = some (k.dialogFunctions.getD []) ∧
       (addDialogFunction k tag fn).1.queuedLoadGameHooks = k.queuedLoadGameHooks) ∧
    ((∀ g, (tag, g) ∉ k.dialogFunctions.getD []) →
       (addDialogFunction k tag fn).2 = none ∧
       (addDialogFunction k tag fn).1.dialogFunctions =
         some (k.dialogFunctions.getD [] ++ [(tag, fn)]) ∧
       (addDialogFunction k tag fn).1.queuedLoadGameHooks = k.queuedLoadGameHooks + 1) := by
  have hiff : ((k.dialogFunctions.getD []).find? (fun e => e.1 == tag)).isSome = true ↔
      ∃ g, (tag, g) ∈ k.dialogFunctions.getD [] := by
    rw [List.find?_isSome]
    constructor
    · rintro ⟨⟨a, g⟩, hmem, hp⟩
      simp only [beq_iff_eq] at hp
      subst hp
      exact ⟨g, hmem⟩
    · rintro ⟨g, hg⟩
      exact ⟨(tag, g), hg, by simp⟩
  constructor
  · intro hex
    have hcond := hiff.mpr hex
    simp [addDialogFunction, hcond]
  · intro hfresh
    have hcond : ((k.dialogFunctions.getD []).find? (fun e => e.1 == tag)).isSome = false := by
      by_cases h : ((k.dialogFunctions.getD []).find? (fun e => e.1 == tag)).isSome = true
      · exact absurd (hiff.mp h) (by rintro ⟨g, hg⟩; exact hfresh g hg)
      · exact Bool.eq_false_iff.mpr h
    simp [addDialogFunction, hcond]

/-- Witness for C5: registering "image" in an empty registry. -/
theorem addDialogFunction_registry_witness :
    (addDialogFunction ⟨none, 0⟩ ("image") 7).2 = none ∧
    (addDialogFunction ⟨none, 0⟩ ("image") 7).1.dialogFunctions = some [("image", 7)] := by
  have h := (addDialogFunction_registry ⟨none, 0⟩ ("image") 7).2
    (by intro g hg; simp at hg)
  exact ⟨h.1, by simpa using h.2.1⟩

/-- When the projection keys of an association list are distinct, finding
an entry by the key of a member returns that member. -/
theorem find?_key_of_mem : ∀ (l : ImageMap), (l.map Prod.fst).Nodup →
    ∀ e ∈ l, l.find? (fun x => x.1 == e.1) = some e := by
  intro l
  induction l with
  | nil => intro _ e he; cases he
  | cons a t ih =>
    intro hnd e he
    rw [List.map_cons, List.nodup_cons] at hnd
    rcases List.mem_cons.mp he with rfl | he2
    · exact List.find?_cons_of_pos _ (by simp)
    · have hae : ¬ a.1 = e.1 := by
        intro hcontra
        exact hnd.1 (hcontra ▸ List.mem_map_of_mem Prod.fst he2)
      rw [List.find?_cons_of_neg _ (by simpa using hae)]
      exact ih hnd.2 e he2

/-- Claim C10 counterexample: with a map owning the literal key
"undefined", looking up a key that matches no entry by id and no entry by
name returns the "undefined" entry (JS coerces the undefined id in
`map[id]` to the property key "undefined"), while the claim dictates that
the lookup returns undefined. -/
theorem getImage_undefined_key_cex :
    getImage ("bar") mapC10 = some imgC10 ∧
    getImageClaimed ("bar") mapC10 = none := by
  exact ⟨rfl, rfl⟩

/-- Claim C10 (as amended): `getImage` resolves by id before name - an
own key wins even when another entry's name equals the key; otherwise the
first entry (in key-enumeration order) whose name equals the key is
returned; when no entry matches, the entry stored under the literal key
"undefined" is returned if the map owns one, and undefined otherwise.
Stated for maps with distinct keys (JS objects cannot repeat keys). -/
theorem getImage_resolution_characterization (name : String) (map : ImageMap)
    (hnd : (map.map Prod.fst).Nodup) :
    getImage name map = getImageAmendedSpec name map := by
  unfold getImage getImageAmendedSpec
  cases hk : map.find? (fun e => e.1 == name) with
  | some e => simp [hk]
  | none =>
    cases hn : map.find? (fun e => e.2.name == some name) with
    | none => simp [hk, hn]
    | some e =>
      have hkey := find?_key_of_mem map hnd e (List.mem_of_find?_eq_some hn)
      simp [hk, hn, hkey]

/-- Witness for C10 at a concrete map: name-based resolution agrees with
the amended specification. -/
theorem getImage_resolution_characterization_witness :
    getImage ("cat") mapC10w = getImageAmendedSpec ("cat") mapC10w ∧
    getImage ("cat") mapC10w = some imgC10a :=
  ⟨getImage_resolution_characterization ("cat") mapC10w (by decide), by decide⟩

/-- When every hook of the chain that is treated as asynchronous always
invokes its continuation, the chain runs every function exactly once, in
chain order: the trace indices are i, i+1, ... -/
theorem runBefore_map_fst (sa : Nat) :
    ∀ (fns : List Hook),
      (∀ f ∈ fns, sa < f.arity → ∀ as, (f.contCall as).isSome = true) →
      ∀ (i : Nat) (args : List Arg),
        (runBefore sa fns i args).map Prod.fst = List.range' i fns.length := by
  intro fns
  induction fns with
  | nil => intro _ i args; simp [runBefore]
  | cons f rest ih =>
    intro H i args
    have Hrest : ∀ g ∈ rest, sa < g.arity → ∀ as, (g.contCall as).isSome = true :=
      fun g hg => H g (List.mem_cons_of_mem f hg)
    by_cases hlt : sa < f.arity
    · cases hc : f.contCall args with
      | none =>
        have hsome := H f (List.mem_cons_self f rest) hlt args
        rw [hc] at hsome
        simp at hsome
      | some ys =>
        simp [runBefore, hlt, hc, ih Hrest, List.range'_succ]
    · cases hr : f.retVal args with
      | none => simp [runBefore, hlt, hr, ih Hrest, List.range'_succ]
      | some ys => simp [runBefore, hlt, hr, ih Hrest, List.range'_succ]

/-- Folding `before` registrations appends the callbacks, in registration
order, to the before-queue of the target name, and leaves the after-queues
untouched. -/
theorem before_foldl (name : String) (bs : List Hook) :
    ∀ (k0 : HookQueues),
      (bs.foldl (fun acc f => before name f acc) k0).queuedBeforeScripts name =
        k0.queuedBeforeScripts name ++ bs ∧
      (bs.foldl (fun acc f => before name f acc) k0).queuedAfterScripts =
        k0.queuedAfterScripts := by
  induction bs with
  | nil => intro k0; simp
  | cons f rest ih =>
    intro k0
    have h := ih (before name f k0)
    rw [List.foldl_cons]
    refine ⟨?_, by rw [h.2]; rfl⟩
    rw [h.1]
    simp [before]

/-- Folding `after` registrations appends the callbacks, in registration
order, to the after-queue of the target name, and leaves the before-queues
untouched. -/
theorem after_foldl (name : String) (afs : List Hook) :
    ∀ (k0 : HookQueues),
      (afs.foldl (fun acc f => after name f acc) k0).queuedAfterScripts name =
        k0.queuedAfterScripts name ++ afs ∧
      (afs.foldl (fun acc f => after name f acc) k0).queuedBeforeScripts =
        k0.queuedBeforeScripts := by
  induction afs with
  | nil => intro k0; simp
  | cons f rest ih =>
    intro k0
    have h := ih (after name f k0)
    rw [List.foldl_cons]
    refine ⟨?_, by rw [h.2]; rfl⟩
    rw [h.1]
    simp [after]

/-- Claim C1: with the before-hooks bs and after-hooks afs registered (in
that registration order) for a native function, `applyHook` installs a
wrapper at the same name - every other name is untouched - and, provided
every callback treated as asynchronous invokes its continuation, invoking
the wrapper runs all before-callbacks in registration order, then the
original function, then all after-callbacks in registration order: the
trace indices into the chain [bs, original, afs] are exactly
0, 1, ..., in order. -/
theorem applyHook_runs_hooks_in_order
    (tbl : String → BitsyFn) (h : Hook) (name : String)
    (bs afs : List Hook) (args : List Arg) (k : HookQueues)
    (htbl : tbl name = .native h)
    (hk : k = afs.foldl (fun acc f => after name f acc)
            (bs.foldl (fun acc f => before name f acc) emptyQueues))
    (hasync : ∀ f ∈ bs ++ [h] ++ afs, h.arity < f.arity →
      ∀ as, (f.contCall as).isSome = true) :
    applyHook tbl k name name = .wrapped (bs ++ [h] ++ afs) h.arity ∧
    (∀ n, n ≠ name → applyHook tbl k name n = tbl n) ∧
    (callBitsyFn (applyHook tbl k name name) args).map Prod.fst =
      List.range (bs.length + 1 + afs.length) := by
  have hb := before_foldl name bs emptyQueues
  have ha := after_foldl name afs (bs.foldl (fun acc f => before name f acc) emptyQueues)
  have hqb : k.queuedBeforeScripts name = bs := by
    rw [hk, congrFun ha.2 name, hb.1]
    simp [emptyQueues]
  have hqa : k.queuedAfterScripts name = afs := by
    rw [hk, ha.1, congrFun hb.2 name]
    simp [emptyQueues]
  have hwrap : applyHook tbl k name name = .wrapped (bs ++ [h] ++ afs) h.arity := by
    simp [applyHook, htbl, hqb, hqa]
  refine ⟨hwrap, ?_, ?_⟩
  · intro n hn
    simp [applyHook, hn]
  · rw [hwrap]
    show (runBefore h.arity (bs ++ [h] ++ afs) 0 args).map Prod.fst = _
    rw [runBefore_map_fst h.arity _ hasync 0 args, List.range_eq_range']
    congr 1
    simp
    omega

/-- Witness for C1 with one before-hook, one after-hook and a native
original, all synchronous: the wrapper runs chain indices 0, 1, 2. -/
theorem applyHook_runs_hooks_in_order_witness :
    (callBitsyFn (applyHook tblC1 kC1 ("drawRoom") ("drawRoom")) [7]).map Prod.fst =
      List.range 3 := by
  have h := applyHook_runs_hooks_in_order tblC1 hookC1o ("drawRoom") [hookC1b] [hookC1a]
    [7] kC1 rfl rfl ?hasync
  · exact h.2.2
  case hasync =>
    intro f hf hlt as
    simp [hookC1b, hookC1o, hookC1a] at hf
    rcases hf with rfl | rfl | rfl <;> rfl

/-- A nonempty chain always invokes its head with the current arguments:
the trace starts with (i, args). -/
theorem runBefore_head (sa : Nat) (f : Hook) (rest : List Hook) (i : Nat) (args : List Arg) :
    ∃ tl, runBefore sa (f :: rest) i args = (i, args) :: tl := by
  by_cases hlt : sa < f.arity
  · cases hc : f.contCall args with
    | none => exact ⟨[], by simp [runBefore, hlt, hc]⟩
    | some ys =>
      exact ⟨runBefore sa rest (i + 1) (if ys = [] then args else ys),
        by simp [runBefore, hlt, hc]⟩
  · cases hr : f.retVal args with
    | none => exact ⟨runBefore sa rest (i + 1) args, by simp [runBefore, hlt, hr]⟩
    | some ys =>
      exact ⟨runBefore sa rest (i + 1) (if ys = [] then args else ys),
        by simp [runBefore, hlt, hr]⟩

/-- If a hook at position kidx of the chain is treated as asynchronous
and never invokes its continuation, no trace entry has an index beyond
i + kidx. -/
theorem runBefore_stall_le (sa : Nat) :
    ∀ (fns : List Hook) (kidx i : Nat) (args : List Arg) (f : Hook),
      fns.get? kidx = some f → sa < f.arity → (∀ as, f.contCall as = none) →
      ∀ p ∈ runBefore sa fns i args, p.1 ≤ i + kidx := by
  intro fns
  induction fns with
  | nil => intro kidx i args f hget; simp at hget
  | cons g rest ih =>
    intro kidx i args f hget hlt hnone p hp
    cases kidx with
    | zero =>
      have hgf : g = f := by simpa using hget
      subst hgf
      simp [runBefore, hlt, hnone args] at hp
      simp [hp]
    | succ k2 =>
      have hget2 : rest.get? k2 = some f := by simpa using hget
      by_cases hglt : sa < g.arity
      · cases hc : g.contCall args with
        | none =>
          simp [runBefore, hglt, hc] at hp
          simp [hp]
        | some ys =>
          simp [runBefore, hglt, hc] at hp
          rcases hp with rfl | hp
          · simp
          · have := ih k2 (i + 1) _ f hget2 hlt hnone p hp
            omega
      · cases hr : g.retVal args with
        | none =>
          simp [runBefore, hglt, hr] at hp
          rcases hp with rfl | hp
          · simp
          · have := ih k2 (i + 1) _ f hget2 hlt hnone p hp
            omega
        | some ys =>
          simp [runBefore, hglt, hr] at hp
          rcases hp with rfl | hp
          · simp
          · have := ih k2 (i + 1) _ f hget2 hlt hnone p hp
            omega

/-- Claim C3: if some before-callback (position kidx among the
before-hooks) is treated as asynchronous and never invokes its
continuation, then every function the wrapped chain ever executes sits at
or before that position - in particular the original function (chain
index bs.length) and every after-callback are never executed. -/
theorem runBefore_stalls_without_continuation
    (h : Hook) (bs afs : List Hook) (kidx : Nat) (f : Hook) (args : List Arg)
    (hget : bs.get? kidx = some f) (hlt : h.arity < f.arity)
    (hnone : ∀ as, f.contCall as = none) :
    ∀ p ∈ callBitsyFn (.wrapped (bs ++ [h] ++ afs) h.arity) args,
      p.1 ≤ kidx ∧ p.1 < bs.length := by
  intro p hp
  have hklen : kidx < bs.length := by
    by_contra hge
    rw [List.get?_eq_none.mpr (by omega)] at hget
    cases hget
  have hchain : (bs ++ [h] ++ afs).get? kidx = some f := by
    rw [List.get?_append (by simpa using Nat.lt_succ_of_lt (by simpa using hklen)),
      List.get?_append hklen]
    exact hget
  have hb := runBefore_stall_le h.arity (bs ++ [h] ++ afs) kidx 0 args f hchain hlt hnone p
    (by simpa [callBitsyFn] using hp)
  exact ⟨by omega, by omega⟩

/-- Witness for C3: a chain whose single before-hook never continues
executes only chain index 0. -/
theorem runBefore_stalls_without_continuation_witness :
    (0, ([4] : List Arg)).1 ≤ 0 ∧ (0, ([4] : List Arg)).1 < 1 := by
  have h := runBefore_stalls_without_continuation hookC3o [hookC3s] [] 0 hookC3s [4]
    rfl (by decide) (fun _ => rfl)
  simpa using h (0, [4]) (by decide)

/-- The n-th trace entry of a chain started at index i carries chain
index i + n: indices advance one by one. -/
theorem runBefore_get?_fst (sa : Nat) :
    ∀ (fns : List Hook) (i : Nat) (args : List Arg) (n : Nat) (p : Nat × List Arg),
      (runBefore sa fns i args).get? n = some p → p.1 = i + n := by
  intro fns
  induction fns with
  | nil => intro i args n p hp; simp [runBefore] at hp
  | cons f rest ih =>
    intro i args n p hp
    by_cases hlt : sa < f.arity
    · cases hc : f.contCall args with
      | none =>
        simp [runBefore, hlt, hc] at hp
        cases n with
        | zero => simp at hp; simp [← hp]
        | succ n2 => simp at hp
      | some ys =>
        simp only [runBefore, hlt, if_true, hc] at hp
        cases n with
        | zero =>
          simp at hp
          simp [← hp]
        | succ n2 =>
          have := ih (i + 1) _ n2 p (by simpa using hp)
          omega
    · cases hr : f.retVal args with
      | none =>
        simp only [runBefore, hlt, if_false, hr] at hp
        cases n with
        | zero => simp at hp; simp [← hp]
        | succ n2 =>
          have := ih (i + 1) _ n2 p (by simpa using hp)
          omega
      | some ys =>
        simp only [runBefore, hlt, if_false, hr] at hp
        cases n with
        | zero => simp at hp; simp [← hp]
        | succ n2 =>
          have := ih (i + 1) _ n2 p (by simpa using hp)
          omega

/-- Two consecutive trace entries are related by the step rule: the
function at the chain position of the first entry advanced the chain,
and the arguments of the second entry are the ones the step rule
computes. -/
theorem runBefore_adjacent (sa : Nat) :
    ∀ (fns : List Hook) (i : Nat) (args : List Arg) (n : Nat) (p q : Nat × List Arg),
      (runBefore sa fns i args).get? n = some p →
      (runBefore sa fns i args).get? (n + 1) = some q →
      ∃ f, fns.get? n = some f ∧ hookStepSpec sa f p.2 = some q.2 := by
  intro fns
  induction fns with
  | nil => intro i args n p q hp _; simp [runBefore] at hp
  | cons f rest ih =>
    intro i args n p q hp hq
    by_cases hlt : sa < f.arity
    · cases hc : f.contCall args with
      | none =>
        simp [runBefore, hlt, hc] at hq
      | some ys =>
        simp only [runBefore, hlt, if_true, hc] at hp hq
        cases n with
        | zero =>
          simp at hp
          obtain rfl : p = (i, args) := hp.symm
          refine ⟨f, rfl, ?_⟩
          simp only [List.get?_cons_succ, Nat.zero_add] at hq
          cases rest with
          | nil => simp [runBefore] at hq
          | cons g rest2 =>
            obtain ⟨tl, htl⟩ := runBefore_head sa g rest2 (i + 1)
              (if ys = [] then args else ys)
            rw [htl] at hq
            simp at hq
            simp [hookStepSpec, hlt, hc, ← hq]
        | succ n2 =>
          simp only [List.get?_cons_succ] at hp hq
          exact ih (i + 1) _ n2 p q hp hq
    · cases hr : f.retVal args with
      | none =>
        simp only [runBefore, hlt, if_false, hr] at hp hq
        cases n with
        | zero =>
          simp at hp
          obtain rfl : p = (i, args) := hp.symm
          refine ⟨f, rfl, ?_⟩
          simp only [List.get?_cons_succ, Nat.zero_add] at hq
          cases rest with
          | nil => simp [runBefore] at hq
          | cons g rest2 =>
            obtain ⟨tl, htl⟩ := runBefore_head sa g rest2 (i + 1) args
            rw [htl] at hq
            simp at hq
            simp [hookStepSpec, hlt, hr, ← hq]
        | succ n2 =>
          simp only [List.get?_cons_succ] at hp hq
          exact ih (i + 1) _ n2 p q hp hq
      | some ys =>
        simp only [runBefore, hlt, if_false, hr] at hp hq
        cases n with
        | zero =>
          simp at hp
          obtain rfl : p = (i, args) := hp.symm
          refine ⟨f, rfl, ?_⟩
          simp only [List.get?_cons_succ, Nat.zero_add] at hq
          cases rest with
          | nil => simp [runBefore] at hq
          | cons g rest2 =>
            obtain ⟨tl, htl⟩ := runBefore_head sa g rest2 (i + 1)
              (if ys = [] then args else ys)
            rw [htl] at hq
            simp at hq
            simp [hookStepSpec, hlt, hr, ← hq]
        | succ n2 =>
          simp only [List.get?_cons_succ] at hp hq
          exact ih (i + 1) _ n2 p q hp hq

/-- A trace that ends right after entry n does so either because the
whole chain was exhausted or because the function at that position was
treated as asynchronous and never invoked its continuation. -/
theorem runBefore_end (sa : Nat) :
    ∀ (fns : List Hook) (i : Nat) (args : List Arg) (n : Nat) (p : Nat × List Arg),
      (runBefore sa fns i args).get? n = some p →
      (runBefore sa fns i args).get? (n + 1) = none →
      n + 1 = fns.length ∨ ∃ f, fns.get? n = some f ∧ hookStepSpec sa f p.2 = none := by
  intro fns
  induction fns with
  | nil => intro i args n p hp _; simp [runBefore] at hp
  | cons f rest ih =>
    intro i args n p hp hq
    by_cases hlt : sa < f.arity
    · cases hc : f.contCall args with
      | none =>
        simp [runBefore, hlt, hc] at hp
        cases n with
        | zero =>
          right
          refine ⟨f, rfl, ?_⟩
          simp at hp
          simp [hookStepSpec, hlt, hc, ← hp]
        | succ n2 => simp at hp
      | some ys =>
        simp only [runBefore, hlt, if_true, hc] at hp hq
        cases n with
        | zero =>
          simp only [List.get?_cons_succ, Nat.zero_add] at hq
          cases rest with
          | nil => left; rfl
          | cons g rest2 =>
            obtain ⟨tl, htl⟩ := runBefore_head sa g rest2 (i + 1)
              (if ys = [] then args else ys)
            rw [htl] at hq
            simp at hq
        | succ n2 =>
          simp only [List.get?_cons_succ] at hp hq
          rcases ih (i + 1) _ n2 p hp hq with hlen | ⟨g, hg, hgs⟩
          · left; simp [← hlen]
          · right; exact ⟨g, by simpa using hg, hgs⟩
    · cases hr : f.retVal args with
      | none =>
        simp only [runBefore, hlt, if_false, hr] at hp hq
        cases n with
        | zero =>
          simp only [List.get?_cons_succ, Nat.zero_add] at hq
          cases rest with
          | nil => left; rfl
          | cons g rest2 =>
            obtain ⟨tl, htl⟩ := runBefore_head sa g rest2 (i + 1) args
            rw [htl] at hq
            simp at hq
        | succ n2 =>
          simp only [List.get?_cons_succ] at hp hq
          rcases ih (i + 1) _ n2 p hp hq with hlen | ⟨g, hg, hgs⟩
          · left; simp [← hlen]
          · right; exact ⟨g, by simpa using hg, hgs⟩
      | some ys =>
        simp only [runBefore, hlt, if_false, hr] at hp hq
        cases n with
        | zero =>
          simp only [List.get?_cons_succ, Nat.zero_add] at hq
          cases rest with
          | nil => left; rfl
          | cons g rest2 =>
            obtain ⟨tl, htl⟩ := runBefore_head sa g rest2 (i + 1)
              (if ys = [] then args else ys)
            rw [htl] at hq
            simp at hq
        | succ n2 =>
          simp only [List.get?_cons_succ] at hp hq
          rcases ih (i + 1) _ n2 p hp hq with hlen | ⟨g, hg, hgs⟩
          · left; simp [← hlen]
          · right; exact ⟨g, by simpa using hg, hgs⟩

/-- Claim C2 (as amended): in the hook runner, the n-th trace entry
belongs to chain function n; consecutive entries obey the step rule
`hookStepSpec` - the function is treated as asynchronous if and only if
its declared parameter count strictly exceeds the original function's
declared parameter count, an asynchronous callback advances the chain
only when its continuation is invoked (the arguments passed to it
replacing the current ones when nonempty), and a synchronous callback
advances immediately, its return value replacing the arguments onward
when it is truthy and nonempty (a truthy empty-array return leaves them
unchanged) - and the trace ends at entry n only when the chain is
exhausted or the step rule yields no advancement. -/
theorem runBefore_step_characterization
    (superFnLength : Nat) (fns : List Hook) (args0 : List Arg) :
    (∀ n p q, (runBefore superFnLength fns 0 args0).get? n = some p →
       (runBefore superFnLength fns 0 args0).get? (n + 1) = some q →
       q.1 = p.1 + 1 ∧
       ∃ f, fns.get? n = some f ∧ hookStepSpec superFnLength f p.2 = some q.2) ∧
    (∀ n p, (runBefore superFnLength fns 0 args0).get? n = some p →
       (runBefore superFnLength fns 0 args0).get? (n + 1) = none →
       n + 1 = fns.length ∨
       ∃ f, fns.get? n = some f ∧ hookStepSpec superFnLength f p.2 = none) ∧
    (∀ n p, (runBefore superFnLength fns 0 args0).get? n = some p → p.1 = n) := by
  refine ⟨?_, ?_, ?_⟩
  · intro n p q hp hq
    have h1 := runBefore_get?_fst superFnLength fns 0 args0 n p hp
    have h2 := runBefore_get?_fst superFnLength fns 0 args0 (n + 1) q hq
    exact ⟨by omega, runBefore_adjacent superFnLength fns 0 args0 n p q hp hq⟩
  · intro n p hp hq
    exact runBefore_end superFnLength fns 0 args0 n p hp hq
  · intro n p hp
    simpa using runBefore_get?_fst superFnLength fns 0 args0 n p hp

/-- Witness for C2 at a concrete two-function chain. -/
theorem runBefore_step_characterization_witness :
    (1, ([5] : List Arg)).1 = (0, ([5] : List Arg)).1 + 1 ∧
    ∃ f, [hookC2t, hookC2o].get? 0 = some f ∧
      hookStepSpec 0 f (0, ([5] : List Arg)).2 = some (1, ([5] : List Arg)).2 :=
  (runBefore_step_characterization 0 [hookC2t, hookC2o] [5]).1 0 (0, [5]) (1, [5]) rfl rfl

/-- Claim C2 counterexample: a synchronous callback that returns the
empty array - a truthy JS value - does not replace the arguments passed
onward: the next function still receives the old arguments [5], not [].
(In the source, `newArgs` becomes the truthy `[]`, but
`runBefore.apply(this, [])` passes no arguments, so the
`arguments.length > 0` update is skipped.) -/
theorem runBefore_truthy_empty_return_cex :
    hookC2t.retVal [5] = some [] ∧
    runBefore 0 [hookC2t, hookC2o] 0 [5] = [(0, [5]), (1, [5])] ∧
    [(0, [5]), (1, [5])] ≠ [(0, ([5] : List Arg)), (1, ([] : List Arg))] := by
  refine ⟨rfl, by decide, by decide⟩

/-- A list is a prefix of itself followed by anything. -/
theorem isPfx_append (p q : List Char) : isPfx p (p ++ q) = true := by
  induction p with
  | nil => rfl
  | cons a as ih => simp [isPfx, ih]

/-- A prefix can be peeled off: the list is the prefix followed by the
rest. -/
theorem isPfx_eq_append_drop (p : List Char) :
    ∀ l : List Char, isPfx p l = true → l = p ++ l.drop p.length := by
  induction p with
  | nil => intro l _; simp
  | cons a as ih =>
    intro l h
    cases l with
    | nil => simp [isPfx] at h
    | cons b bs =>
      simp only [isPfx, Bool.and_eq_true, beq_iff_eq] at h
      obtain ⟨rfl, h2⟩ := h
      simp only [List.length_cons, List.drop_succ_cons, List.cons_append]
      rw [← ih bs h2]

/-- Soundness of `splitFirst`: a successful split decomposes the text
around the pattern, and the pattern occurs at no earlier position. -/
theorem splitFirst_spec (pat : List Char) :
    ∀ (s pre post : List Char), splitFirst pat s = some (pre, post) →
      s = pre ++ pat ++ post ∧ ∀ kk, kk < pre.length → isPfx pat (s.drop kk) = false := by
  intro s
  induction s with
  | nil =>
    intro pre post h
    by_cases hp : pat = []
    · subst hp
      rw [splitFirst, if_pos rfl] at h
      have h1 : ([] : List Char) = pre := congrArg Prod.fst (Option.some.inj h)
      have h2 : ([] : List Char) = post := congrArg Prod.snd (Option.some.inj h)
      subst h1
      subst h2
      exact ⟨rfl, by intro kk hkk; simp at hkk⟩
    · simp [splitFirst, hp] at h
  | cons c rest ih =>
    intro pre post h
    rw [splitFirst] at h
    by_cases hpf : isPfx pat (c :: rest) = true
    · rw [if_pos hpf] at h
      rw [Option.some.injEq] at h
      have h1 : ([] : List Char) = pre := congrArg Prod.fst h
      have h2 : (c :: rest).drop pat.length = post := congrArg Prod.snd h
      subst h1
      subst h2
      refine ⟨?_, by intro kk hkk; simp at hkk⟩
      simpa using isPfx_eq_append_drop pat (c :: rest) hpf
    · rw [if_neg hpf] at h
      cases hrec : splitFirst pat rest with
      | none => rw [hrec] at h; cases h
      | some pp =>
        rw [hrec] at h
        rw [Option.some.injEq] at h
        have h1 : c :: pp.1 = pre := congrArg Prod.fst h
        have h2 : pp.2 = post := congrArg Prod.snd h
        subst h1
        subst h2
        obtain ⟨hdec, hmin⟩ := ih pp.1 pp.2 hrec
        constructor
        · simp [List.cons_append, List.append_assoc] at hdec ⊢
          exact hdec
        · intro kk hkk
          cases kk with
          | zero => simpa using Bool.eq_false_iff.mpr hpf
          | succ k2 =>
            have hk2 : k2 < pp.1.length := by simp at hkk; omega
            simpa using hmin k2 hk2

/-- Completeness of `splitFirst`: a pattern that occurs in the text is
found. -/
theorem splitFirst_isSome_of_decomp (pat : List Char) :
    ∀ (pre post : List Char), (splitFirst pat (pre ++ pat ++ post)).isSome = true := by
  intro pre
  induction pre with
  | nil =>
    intro post
    simp only [List.nil_append]
    cases pat with
    | nil =>
      cases post with
      | nil => rfl
      | cons c cs => simp [splitFirst, isPfx]
    | cons a as =>
      have hpfx : isPfx (a :: as) ((a :: as) ++ post) = true := isPfx_append (a :: as) post
      rw [List.cons_append]
      rw [List.cons_append] at hpfx
      simp [splitFirst, hpfx]
  | cons c pre2 ih =>
    intro post
    have hshape : (c :: pre2) ++ pat ++ post = c :: (pre2 ++ pat ++ post) := by simp
    rw [hshape, splitFirst]
    by_cases hpf : isPfx pat (c :: (pre2 ++ pat ++ post)) = true
    · rw [if_pos hpf]
      rfl
    · rw [if_neg hpf]
      have hrecsome := ih post
      cases hrec : splitFirst pat (pre2 ++ pat ++ post) with
      | none => rw [hrec] at hrecsome; simp at hrecsome
      | some pp => simp [hrec]

/-- A text occurring as a factor of a string is found by `containsSub`. -/
theorem containsSub_of_decomp (s pat : String) (pre post : List Char)
    (h : s.data = pre ++ pat.data ++ post) : containsSub s pat = true := by
  unfold containsSub
  rw [h]
  exact splitFirst_isSome_of_decomp pat.data pre post

/-- GetSubstitution is the identity on replacement texts without special
dollar sequences (length-bounded recursion). -/
theorem getSubstitution_len_id (m pre post : List Char) :
    ∀ (nn : Nat) (repl : List Char), repl.length ≤ nn → hasDollarSpecial repl = false →
      getSubstitution m pre post repl = repl := by
  intro nn
  induction nn with
  | zero =>
    intro repl hlen _
    have : repl = [] := List.length_eq_zero.mp (Nat.le_zero.mp hlen)
    subst this
    rfl
  | succ n2 ih =>
    intro repl hlen hspec
    cases repl with
    | nil => rfl
    | cons c tl =>
      cases tl with
      | nil => rfl
      | cons d rest =>
        by_cases hc : c = dolChar
        · by_cases hd : d = dolChar ∨ d = '&' ∨ d = bqtChar ∨ d = apoChar
          · simp [hasDollarSpecial, hc, hd] at hspec
          · push_neg at hd
            obtain ⟨hd1, hd2, hd3, hd4⟩ := hd
            have hrest : hasDollarSpecial rest = false := by
              simpa [hasDollarSpecial, hc, hd1, hd2, hd3, hd4] using hspec
            have hlen2 : rest.length ≤ n2 := by simp at hlen; omega
            simp [getSubstitution, hc, hd1, hd2, hd3, hd4, ih rest hlen2 hrest]
        · have hspec2 : hasDollarSpecial (d :: rest) = false := by
            simpa [hasDollarSpecial, hc] using hspec
          have hlen2 : (d :: rest).length ≤ n2 := by simp at hlen ⊢; omega
          simp [getSubstitution, hc, ih (d :: rest) hlen2 hspec2]

/-- GetSubstitution inserts a replacement literally when it holds no
special dollar sequence. -/
theorem getSubstitution_eq_self (m pre post repl : List Char)
    (h : hasDollarSpecial repl = false) : getSubstitution m pre post repl = repl :=
  getSubstitution_len_id m pre post repl.length repl le_rfl h

/-- The search loop finds nothing exactly when no non-current script tag
contains the search string. -/
theorem injectFind_eq_none_iff (search : String) :
    ∀ scripts : List ScriptTag,
      injectFind search scripts = none ↔
        ¬ ∃ t ∈ scripts, t.isCurrent = false ∧ containsSub t.text search = true := by
  intro scripts
  induction scripts with
  | nil => simp [injectFind]
  | cons t rest ih =>
    rw [injectFind]
    by_cases h1 : (containsSub t.text search && !t.isCurrent) = true
    · rw [if_pos h1]
      simp only [Bool.and_eq_true, Bool.not_eq_true'] at h1
      constructor
      · intro hsome; cases hsome
      · intro hno
        exact absurd ⟨t, List.mem_cons_self t rest, h1.2, h1.1⟩ hno
    · rw [if_neg h1]
      rw [ih]
      simp only [Bool.and_eq_true, Bool.not_eq_true'] at h1
      constructor
      · rintro hno ⟨u, hu, hcur, hcont⟩
        rcases List.mem_cons.mp hu with rfl | hu2
        · exact h1 ⟨hcont, hcur⟩
        · exact hno ⟨u, hu2, hcur, hcont⟩
      · rintro hno ⟨u, hu, hcur, hcont⟩
        exact hno ⟨u, List.mem_cons_of_mem t hu, hcur, hcont⟩

/-- A successful search returns the text of a matching non-current script
tag. -/
theorem injectFind_some_exists (search : String) :
    ∀ (scripts : List ScriptTag) (c : String), injectFind search scripts = some c →
      ∃ t ∈ scripts, t.isCurrent = false ∧ containsSub t.text search = true ∧ t.text = c := by
  intro scripts
  induction scripts with
  | nil => intro c h; simp [injectFind] at h
  | cons t rest ih =>
    intro c h
    rw [injectFind] at h
    by_cases h1 : (containsSub t.text search && !t.isCurrent) = true
    · rw [if_pos h1] at h
      have htc : t.text = c := Option.some.inj h
      simp only [Bool.and_eq_true, Bool.not_eq_true'] at h1
      exact ⟨t, List.mem_cons_self t rest, h1.2, h1.1, htc⟩
    · rw [if_neg h1] at h
      obtain ⟨u, hu, ha, hb, hd⟩ := ih c h
      exact ⟨u, List.mem_cons_of_mem t hu, ha, hb, hd⟩

/-- Claim C4 (as amended): `inject` throws exactly when either no script
tag other than the current one has text containing the search string, or
the first such tag has empty text content (the `!code` falsiness check
also fires on the empty string, which can match only the empty search
string); the thrown message contains the search string. -/
theorem inject_error_characterization
    (searchString : String) (frags : List Frag) (scripts : List ScriptTag) :
    (isErr (inject searchString frags scripts) = true ↔
      ((¬ ∃ t ∈ scripts, t.isCurrent = false ∧ containsSub t.text searchString = true) ∨
        injectFind searchString scripts = some "")) ∧
    (∀ e, inject searchString frags scripts = .error e →
      containsSub e searchString = true) := by
  have hmsg : containsSub (msgNotFound searchString) searchString = true := by
    refine containsSub_of_decomp _ _
      (("Couldn" ++ String.singleton apoChar ++ "t find \"").data)
      ("\" in script tags".data) ?_
    simp [msgNotFound, String.data_append, List.append_assoc]
  constructor
  · cases hfind : injectFind searchString scripts with
    | none =>
      exact iff_of_true (by simp [inject, hfind, isErr])
        (Or.inl ((injectFind_eq_none_iff searchString scripts).mp hfind))
    | some c =>
      by_cases hc : c = ""
      · subst hc
        exact iff_of_true (by simp [inject, hfind, isErr]) (Or.inr rfl)
      · refine iff_of_false (by simp [inject, hfind, hc, isErr]) ?_
        rintro (hno | heq)
        · obtain ⟨t, ht, hcur, hcont, _⟩ :=
            injectFind_some_exists searchString scripts c hfind
          exact hno ⟨t, ht, hcur, hcont⟩
        · exact hc (Option.some.inj heq)
  · intro e he
    cases hfind : injectFind searchString scripts with
    | none =>
      have hemsg : msgNotFound searchString = e := by
        simpa [inject, hfind] using he
      rw [← hemsg]
      exact hmsg
    | some c =>
      by_cases hc : c = ""
      · subst hc
        have hemsg : msgNotFound searchString = e := by
          simpa [inject, hfind] using he
        rw [← hemsg]
        exact hmsg
      · exact absurd he (by simp [inject, hfind, hc])

/-- Claim C4 counterexample: with the empty search string and a single
non-current script tag with empty text, a matching script tag exists
(every string contains the empty string), yet `inject` throws - the
`!code` check treats the matched empty text as missing. -/
theorem inject_empty_search_cex :
    (ScriptTag.mk "" false).isCurrent = false ∧
    containsSub (ScriptTag.mk "" false).text ("") = true ∧
    isErr (inject ("") [] [ScriptTag.mk "" false]) = true :=
  ⟨rfl, rfl, rfl⟩

/-- Witness for C4: the message thrown on a failed search contains the
search string. -/
theorem inject_error_characterization_witness :
    containsSub (msgNotFound ("hm")) ("hm") = true :=
  (inject_error_characterization ("hm") [] []).2 (msgNotFound ("hm")) rfl

/-- Claim C7 (as amended): when `inject` finds a matching script tag with
nonempty text and the replacement (search string followed by the
flattened, concatenated fragments) holds no special dollar sequence, the
patched text is the original text with the injected code inserted
immediately after the first occurrence of the search string, every other
character unchanged; without that proviso, `String.prototype.replace`
interprets `$`-sequences of the replacement. -/
theorem inject_patch_characterization
    (searchString codeText : String) (frags : List Frag) (scripts : List ScriptTag)
    (pre post : List Char)
    (hfind : injectFind searchString scripts = some codeText)
    (hne : codeText ≠ "")
    (hsplit : splitFirst searchString.data codeText.data = some (pre, post))
    (hnospec : hasDollarSpecial
      (searchString.data ++ (joinAll (flattenList frags)).data) = false) :
    inject searchString frags scripts =
      .ok (String.mk (pre ++ searchString.data ++
        (joinAll (flattenList frags)).data ++ post)) ∧
    codeText.data = pre ++ searchString.data ++ post ∧
    (∀ kk, kk < pre.length → isPfx searchString.data (codeText.data.drop kk) = false) := by
  have hspec := splitFirst_spec searchString.data codeText.data pre post hsplit
  refine ⟨?_, hspec.1, hspec.2⟩
  simp only [inject, hfind]
  rw [if_neg hne]
  unfold jsReplaceOnce
  rw [hsplit]
  simp [getSubstitution_eq_self _ _ _ _ hnospec, List.append_assoc]

/-- Claim C7 counterexample: injecting the fragment "$&" after the
landmark "x" in the script text "x" yields "xx", not the claimed literal
insertion "x$&": the replacement pattern `$&` of
`String.prototype.replace` denotes the matched text. -/
theorem inject_dollar_substitution_cex :
    inject ("x") [Frag.str ("$&")] [ScriptTag.mk "x" false] = .ok ("xx") ∧
    ("xx" : String) ≠ "x" ++ "$&" := by
  refine ⟨rfl, by decide⟩

/-- Witness for C7: injecting "Z" after "ab" inside "xxabyy". -/
theorem inject_patch_characterization_witness :
    inject ("ab") [Frag.str ("Z")] [ScriptTag.mk "xxabyy" false] = .ok ("xxabZyy") := by
  have h := inject_patch_characterization ("ab") ("xxabyy") [Frag.str ("Z")]
    [ScriptTag.mk "xxabyy" false] ("xx".data) ("yy".data) rfl (by decide) (by decide)
    (by decide)
  rw [h.1]
  rfl

/-- The `maps` object resolves a key exactly when it is one of the six
recognized identifiers. -/
theorem mapsLookup_eq_none_iff (b : BitsyMaps) (s : String) :
    mapsLookup b s = none ↔ s ∉ recognizedMaps := by
  unfold mapsLookup recognizedMaps
  by_cases h1 : s = "spr" ∨ s = "sprite"
  · rw [if_pos h1]
    rcases h1 with rfl | rfl <;> simp
  · by_cases h2 : s = "til" ∨ s = "tile"
    · rw [if_neg h1, if_pos h2]
      rcases h2 with rfl | rfl <;> simp
    · by_cases h3 : s = "itm" ∨ s = "item"
      · rw [if_neg h1, if_neg h2, if_pos h3]
        rcases h3 with rfl | rfl <;> simp
      · rw [if_neg h1, if_neg h2, if_neg h3]
        push_neg at h1 h2 h3
        simp [h1.1, h1.2, h2.1, h2.2, h3.1, h3.2]

/-- A successful `editImage` call ends with the `onReturn(null)` call. -/
theorem editImage_ok_shape (b : BitsyMaps) (p : String) (effs : List ImgEffect)
    (h : editImage b p true = .ok effs) : effs.getLast? = some .onReturnNull := by
  by_cases h1 : jsToLower ((splitParams p).getD 0 "") = "" ∨ (splitParams p).getD 1 "" = "" ∨
      (splitParams p).getD 2 "" = ""
  · have herr : isErr (editImage b p true) = true := by
      simp only [editImage]
      rw [if_pos h1]
      rfl
    rw [h] at herr
    simp [isErr] at herr
  · cases hm : mapsLookup b (jsToLower ((splitParams p).getD 0 "")) with
    | none =>
      have herr : isErr (editImage b p true) = true := by
        simp only [editImage]
        rw [if_neg h1]; simp only [hm]
        rfl
      rw [h] at herr
      simp [isErr] at herr
    | some m =>
      cases ht : getImage ((splitParams p).getD 1 "") m with
      | none =>
        have herr : isErr (editImage b p true) = true := by
          simp only [editImage]
          rw [if_neg h1]; simp only [hm, ht]
          rfl
        rw [h] at herr
        simp [isErr] at herr
      | some tobj =>
        cases hs : getImage ((splitParams p).getD 2 "") m with
        | none =>
          have herr : isErr (editImage b p true) = true := by
            simp only [editImage]
            rw [if_neg h1]; simp only [hm, ht, hs]
            rfl
          rw [h] at herr
          simp [isErr] at herr
        | some sobj =>
          have hok : editImage b p true = .ok
              (ImgEffect.setAnimationData ((splitParams p).getD 1 "") sobj.animation ::
                ((List.range sobj.animation.frameCount).map
                  (fun i => ImgEffect.copyFrame ((splitParams p).getD 1 "")
                    ((splitParams p).getD 2 "") i) ++
                 [ImgEffect.onReturnNull])) := by
            simp only [editImage]
            rw [if_neg h1]; simp only [hm, ht, hs]
            rfl
          rw [hok, Except.ok.injEq] at h
          rw [← h, ← List.cons_append]
          exact List.getLast?_concat _

/-- A successful `editPalette` call ends with the `onReturn(null)` call. -/
theorem editPalette_ok_shape (b : BitsyMaps) (p : String) (effs : List ImgEffect)
    (h : editPalette b p true = .ok effs) : effs.getLast? = some .onReturnNull := by
  by_cases h1 : (splitParams p).getD 0 "" = "" ∨ (splitParams p).getD 1 "" = "" ∨
      (splitParams p).getD 2 "" = ""
  · have herr : isErr (editPalette b p true) = true := by
      simp only [editPalette]
      rw [if_pos h1]
      rfl
    rw [h] at herr
    simp [isErr] at herr
  · cases hm : mapsLookup b ((splitParams p).getD 0 "") with
    | none =>
      have herr : isErr (editPalette b p true) = true := by
        simp only [editPalette]
        rw [if_neg h1]; simp only [hm]
        rfl
      rw [h] at herr
      simp [isErr] at herr
    | some m =>
      cases ht : getImage ((splitParams p).getD 1 "") m with
      | none =>
        have herr : isErr (editPalette b p true) = true := by
          simp only [editPalette]
          rw [if_neg h1]; simp only [hm, ht]
          rfl
        rw [h] at herr
        simp [isErr] at herr
      | some tobj =>
        cases hn : jsParseInt ((splitParams p).getD 2 "") with
        | none =>
          have herr : isErr (editPalette b p true) = true := by
            simp only [editPalette]
            rw [if_neg h1]; simp only [hm, ht, hn]
            rfl
          rw [h] at herr
          simp [isErr] at herr
        | some pal =>
          have hok : editPalette b p true = .ok
              ([ImgEffect.setCol ((splitParams p).getD 1 "") pal,
                ImgEffect.renderForAllPalettes ((splitParams p).getD 1 "")] ++
               [ImgEffect.onReturnNull]) := by
            simp only [editPalette]
            rw [if_neg h1]; simp only [hm, ht, hn]
            rfl
          rw [hok, Except.ok.injEq] at h
          rw [← h]
          exact List.getLast?_concat _

/-- Claim C6: the image-editing dialog functions throw exactly when one
of the three comma-separated parameters is missing or empty, or the map
identifier is not recognized (lowercased first for editImage, verbatim
for editPalette), or the target - and for editImage the source - is not
resolved by `getImage` in the chosen map, or, for editPalette, the
palette parameter does not parse as a number under `parseInt`; otherwise
no error is thrown and the effect list ends with the `onReturn(null)`
call. -/
theorem editImage_editPalette_error_iff (b : BitsyMaps) (p : String) :
    (isErr (editImage b p true) = true ↔
      jsToLower ((splitParams p).getD 0 "") = "" ∨ (splitParams p).getD 1 "" = "" ∨
      (splitParams p).getD 2 "" = "" ∨
      jsToLower ((splitParams p).getD 0 "") ∉ recognizedMaps ∨
      (∃ m, mapsLookup b (jsToLower ((splitParams p).getD 0 "")) = some m ∧
        (getImage ((splitParams p).getD 1 "") m = none ∨
         getImage ((splitParams p).getD 2 "") m = none))) ∧
    (isErr (editPalette b p true) = true ↔
      (splitParams p).getD 0 "" = "" ∨ (splitParams p).getD 1 "" = "" ∨
      (splitParams p).getD 2 "" = "" ∨
      (splitParams p).getD 0 "" ∉ recognizedMaps ∨
      (∃ m, mapsLookup b ((splitParams p).getD 0 "") = some m ∧
        (getImage ((splitParams p).getD 1 "") m = none ∨
         jsParseInt ((splitParams p).getD 2 "") = none))) ∧
    (∀ effs, editImage b p true = .ok effs → effs.getLast? = some .onReturnNull) ∧
    (∀ effs, editPalette b p true = .ok effs → effs.getLast? = some .onReturnNull) := by
  refine ⟨?_, ?_, fun effs h => editImage_ok_shape b p effs h,
    fun effs h => editPalette_ok_shape b p effs h⟩
  · by_cases h1 : jsToLower ((splitParams p).getD 0 "") = "" ∨ (splitParams p).getD 1 "" = "" ∨
        (splitParams p).getD 2 "" = ""
    · have herr : isErr (editImage b p true) = true := by
        simp only [editImage]
        rw [if_pos h1]
        rfl
      rw [herr]
      simp only [true_iff]
      tauto
    · push_neg at h1
      obtain ⟨e1, e2, e3⟩ := h1
      cases hm : mapsLookup b (jsToLower ((splitParams p).getD 0 "")) with
      | none =>
        have herr : isErr (editImage b p true) = true := by
          simp only [editImage]
          rw [if_neg (by tauto)]; simp only [hm]
          rfl
        rw [herr]
        simp only [true_iff]
        exact Or.inr (Or.inr (Or.inr (Or.inl ((mapsLookup_eq_none_iff b _).mp hm))))
      | some m =>
        have hmem : jsToLower ((splitParams p).getD 0 "") ∈ recognizedMaps := by
          by_contra hno
          rw [← mapsLookup_eq_none_iff b] at hno
          rw [hm] at hno
          cases hno
        cases ht : getImage ((splitParams p).getD 1 "") m with
        | none =>
          have herr : isErr (editImage b p true) = true := by
            simp only [editImage]
            rw [if_neg (by tauto)]; simp only [hm, ht]
            rfl
          rw [herr]
          simp only [true_iff]
          exact Or.inr (Or.inr (Or.inr (Or.inr ⟨m, rfl, Or.inl ht⟩)))
        | some tobj =>
          cases hs : getImage ((splitParams p).getD 2 "") m with
          | none =>
            have herr : isErr (editImage b p true) = true := by
              simp only [editImage]
              rw [if_neg (by tauto)]; simp only [hm, ht, hs]
              rfl
            rw [herr]
            simp only [true_iff]
            exact Or.inr (Or.inr (Or.inr (Or.inr ⟨m, rfl, Or.inr hs⟩)))
          | some sobj =>
            have hok : isErr (editImage b p true) = false := by
              simp only [editImage]
              rw [if_neg (by tauto)]; simp only [hm, ht, hs]
              rfl
            rw [hok]
            simp only [Bool.false_eq_true, false_iff]
            rintro (h | h | h | h | ⟨m2, hm2, hcase⟩)
            · exact e1 h
            · exact e2 h
            · exact e3 h
            · exact h hmem
            · obtain rfl : m = m2 := Option.some.inj hm2
              rcases hcase with hbad | hbad
              · rw [ht] at hbad; cases hbad
              · rw [hs] at hbad; cases hbad
  · by_cases h1 : (splitParams p).getD 0 "" = "" ∨ (splitParams p).getD 1 "" = "" ∨
        (splitParams p).getD 2 "" = ""
    · have herr : isErr (editPalette b p true) = true := by
        simp only [editPalette]
        rw [if_pos h1]
        rfl
      rw [herr]
      simp only [true_iff]
      tauto
    · push_neg at h1
      obtain ⟨e1, e2, e3⟩ := h1
      cases hm : mapsLookup b ((splitParams p).getD 0 "") with
      | none =>
        have herr : isErr (editPalette b p true) = true := by
          simp only [editPalette]
          rw [if_neg (by tauto)]; simp only [hm]
          rfl
        rw [herr]
        simp only [true_iff]
        exact Or.inr (Or.inr (Or.inr (Or.inl ((mapsLookup_eq_none_iff b _).mp hm))))
      | some m =>
        have hmem : (splitParams p).getD 0 "" ∈ recognizedMaps := by
          by_contra hno
          rw [← mapsLookup_eq_none_iff b] at hno
          rw [hm] at hno
          cases hno
        cases ht : getImage ((splitParams p).getD 1 "") m with
        | none =>
          have herr : isErr (editPalette b p true) = true := by
            simp only [editPalette]
            rw [if_neg (by tauto)]; simp only [hm, ht]
            rfl
          rw [herr]
          simp only [true_iff]
          exact Or.inr (Or.inr (Or.inr (Or.inr ⟨m, rfl, Or.inl ht⟩)))
        | some tobj =>
          cases hn : jsParseInt ((splitParams p).getD 2 "") with
          | none =>
            have herr : isErr (editPalette b p true) = true := by
              simp only [editPalette]
              rw [if_neg (by tauto)]; simp only [hm, ht, hn]
              rfl
            rw [herr]
            simp only [true_iff]
            exact Or.inr (Or.inr (Or.inr (Or.inr ⟨m, rfl, Or.inr (by trivial)⟩)))
          | some pal =>
            have hok : isErr (editPalette b p true) = false := by
              simp only [editPalette]
              rw [if_neg (by tauto)]; simp only [hm, ht, hn]
              rfl
            rw [hok]
            simp only [Bool.false_eq_true, false_iff]
            rintro (h | h | h | h | ⟨m2, hm2, hcase⟩)
            · exact e1 h
            · exact e2 h
            · exact e3 h
            · exact h hmem
            · obtain rfl : m = m2 := Option.some.inj hm2
              rcases hcase with hbad | hbad
              · rw [ht] at hbad; cases hbad
              · exact Option.noConfusion hbad

/-- Witness for C6: a well-formed invocation succeeds and ends with the
`onReturn(null)` call. -/
theorem editImage_editPalette_error_iff_witness :
    editImage mapsC6 ("spr, A, a") true =
      .ok [.setAnimationData ("A") ⟨1, false, 0⟩, .copyFrame ("A") ("a") 0,
        .onReturnNull] ∧
    [ImgEffect.setAnimationData ("A") ⟨1, false, 0⟩, .copyFrame ("A") ("a") 0,
      .onReturnNull].getLast? = some .onReturnNull := by
  refine ⟨by decide, ?_⟩
  exact (editImage_editPalette_error_iff mapsC6 ("spr, A, a")).2.2.1 _ (by decide)

end BitsyHacks
